import Mathlib

/-!
Verification of the project-configuration codec and mutation layer of the
flutterflow-mcp-server repository (`src/yaml-utils.ts`).

The Document Mapping (TS `ProjectYamlFiles`, a JS object from path to parsed
YAML document) is embedded as an association list `Files := List (String × Yaml)`
whose keys are unique in every state a JS object can be in; `Yaml` is the type
of parsed structured-text documents (maps, sequences, scalars).  JS-specific
semantics (truthiness, optional chaining `?.`, `||` defaulting, object spread,
`Object.entries`, `String.prototype.replace` with a string pattern replacing
only the first occurrence, `includes` substring containment) are modelled by
dedicated functions below, each annotated with the construct it embeds.
-/

namespace FFMcp

/-- A parsed structured-text (YAML) document: the supported shapes are maps,
sequences and scalars (string, integer, boolean, null), exactly the shapes the
spec calls "structured-text-representable". -/
inductive Yaml where
  | str : String → Yaml
  | num : Int → Yaml
  | bool : Bool → Yaml
  | null : Yaml
  | seq : List Yaml → Yaml
  | map : List (String × Yaml) → Yaml

/-- The Document Mapping: JS object from document path to parsed document,
in insertion order. -/
abbrev Files := List (String × Yaml)

/-- JS truthiness of a parsed YAML value: `null`, `false`, `0` and `""` are
falsy, everything else (including empty arrays and empty objects) is truthy. -/
def truthy : Yaml → Bool
  | .str s => s ≠ ""
  | .num n => n ≠ 0
  | .bool b => b
  | .null => false
  | .seq _ => true
  | .map _ => true

/-- First-occurrence association-list lookup; JS object property access for
objects (whose keys are unique). -/
def lookupKey (k : String) : List (String × Yaml) → Option Yaml
  | [] => none
  | (k', v) :: rest => if k' = k then some v else lookupKey k rest

/-- JS optional-chaining access `v?.k` on a parsed YAML value — and plain
`v.k` at sites where `v` is already known non-null (truthiness-guarded): a
string-keyed own property exists only on objects; on scalars and arrays the
access yields `undefined`, and `null?.k` short-circuits to `undefined`
(both modelled as `none`).  Unguarded plain access is `getFieldPlain`. -/
def getField (y : Yaml) (k : String) : Option Yaml :=
  match y with
  | .map kvs => lookupKey k kvs
  | _ => none

/-- Whether a parsed value is the YAML null. -/
def isNull : Yaml → Bool
  | .null => true
  | _ => false

/-- JS plain (unguarded) property access `v.k`: throws a TypeError when `v`
is null, otherwise behaves like `getField` (the property, or `undefined`). -/
def getFieldPlain (y : Yaml) (k : String) : Except String (Option Yaml) :=
  match y with
  | .null => .error "TypeError: Cannot read properties of null"
  | .map kvs => .ok (lookupKey k kvs)
  | _ => .ok none

/-- JS `a || b` where `a` is a possibly-undefined property: the value if
present and truthy, otherwise the default. -/
def jsOr (a : Option Yaml) (b : Yaml) : Yaml :=
  match a with
  | some v => if truthy v then v else b
  | none => b

/-- Truthiness of a possibly-undefined value (`undefined` is falsy). -/
def jsTruthyOpt : Option Yaml → Bool
  | some v => truthy v
  | none => false

/-- The field if it exists and is truthy (the combined test
`content?.k && …` used by the extractors' guards). -/
def getFieldTruthy (y : Yaml) (k : String) : Option Yaml :=
  match getField y k with
  | some v => if truthy v then some v else none
  | none => none

/-- JS object property assignment / object-literal override: setting key `k`
replaces the value in place when `k` is already present (keeping its
position), otherwise appends the new entry. -/
def setKey : List (String × Yaml) → String → Yaml → List (String × Yaml)
  | [], k, v => [(k, v)]
  | (k', v') :: rest, k, v =>
    if k' = k then (k, v) :: rest else (k', v') :: setKey rest k v

/-- JS object spread `{...base, ...extra}`: the fields of `extra` assigned
left to right over `base`. -/
def spreadMerge (base extra : List (String × Yaml)) : List (String × Yaml) :=
  extra.foldl (fun acc kv => setKey acc kv.1 kv.2) base

/-- `Object.entries` of a parsed YAML value, which is also the field list
contributed by a JS object spread `{...v}`: an object's own entries; an
array's or string's indexed entries; nothing for null and other scalars. -/
def objEntries : Yaml → List (String × Yaml)
  | .map kvs => kvs
  | .seq xs => xs.enum.map (fun p => (toString p.1, p.2))
  | .str s => s.toList.enum.map (fun p => (toString p.1, Yaml.str (String.singleton p.2)))
  | _ => []

/-- `Object.entries`/spread of a possibly-undefined value (`{...undefined}`
is `{}`). -/
def objEntriesOpt : Option Yaml → List (String × Yaml)
  | some v => objEntries v
  | none => []

/-- Substring search on character lists (JS `String.prototype.includes`). -/
def infixOfL (pat : List Char) : List Char → Bool
  | [] => pat.isEmpty
  | c :: cs => pat.isPrefixOf (c :: cs) || infixOfL pat cs

/-- JS `s.includes(sub)`. -/
def strIncludes (s sub : String) : Bool :=
  infixOfL sub.toList s.toList

/-- JS `s.endsWith(suf)`. -/
def strEndsWith (s suf : String) : Bool :=
  suf.toList.reverse.isPrefixOf s.toList.reverse

/-- JS `s.replace(pat, '')` with a string pattern: removes the first
occurrence of `pat` (if any) and leaves the rest untouched. -/
def replaceFirst (pat : List Char) : List Char → List Char
  | [] => []
  | c :: cs =>
    if pat.isPrefixOf (c :: cs) then (c :: cs).drop pat.length
    else c :: replaceFirst pat cs

/-- JS `s.split('/')` for the one-character separator. -/
def splitSlashAux : List Char → List Char → List String
  | [], acc => [String.mk acc.reverse]
  | c :: cs, acc =>
    if c = '/' then String.mk acc.reverse :: splitSlashAux cs []
    else splitSlashAux cs (c :: acc)

/-- `YamlUtils.extractNameFromFilename` (yaml-utils.ts:248-252): the last
`/`-separated segment with the first occurrence of `.yaml` removed and then
the first occurrence of `.yml` removed. -/
def extractNameFromFilename (filename : String) : String :=
  let parts := splitSlashAux filename.toList []
  let nameWithExt := parts.getLastD ""
  String.mk (replaceFirst ".yml".toList (replaceFirst ".yaml".toList nameWithExt.toList))

/-- Record returned per component by `YamlUtils.extractComponents`
(yaml-utils.ts:50-66). -/
structure ComponentRec where
  filename : String
  name : Yaml
  definition : Yaml
  properties : Yaml
  widgets : Yaml

/-- Record returned per page by `YamlUtils.extractPages`
(yaml-utils.ts:68-84).  `route` is a plain property access with no default,
hence possibly undefined. -/
structure PageRec where
  filename : String
  name : Yaml
  route : Option Yaml
  definition : Yaml
  widgets : Yaml
  actions : Yaml

/-- Record for custom actions and custom functions in
`YamlUtils.extractCustomCode` (yaml-utils.ts:98-126): `name` is the plain
wrapper property access with no fallback, hence possibly undefined. -/
structure CustomCodeRec where
  filename : String
  name : Option Yaml
  definition : Yaml
  code : Yaml
  parameters : Yaml

/-- Record for custom widgets in `YamlUtils.extractCustomCode`
(yaml-utils.ts:112-119): carries `properties` instead of `parameters`. -/
structure CustomWidgetRec where
  filename : String
  name : Option Yaml
  definition : Yaml
  code : Yaml
  properties : Yaml

/-- The three lists returned by `YamlUtils.extractCustomCode`. -/
structure CustomCodeResult where
  actions : List CustomCodeRec
  functions : List CustomCodeRec
  widgets : List CustomWidgetRec

/-- Record returned per collection by `YamlUtils.extractDatabaseCollections`
(yaml-utils.ts:131-158). -/
structure CollectionRec where
  filename : String
  name : Yaml
  definition : Yaml
  fields : Yaml
  indexes : Yaml

/-- Record returned by `YamlUtils.extractAppState` (yaml-utils.ts:160-167). -/
structure AppStateRec where
  «variables» : Yaml
  dataTypes : Yaml
  constants : Yaml

/-- One iteration of `YamlUtils.extractComponents` (yaml-utils.ts:53-63):
the pushed record when the entry matches, `none` otherwise. -/
def componentOf (fn : String) (content : Yaml) : Option ComponentRec :=
  if strIncludes fn "components/" = true then
    match getFieldTruthy content "componentDefinition" with
    | some d =>
      some { filename := fn
             name := jsOr (getField d "name") (.str (extractNameFromFilename fn))
             definition := d
             properties := jsOr (getField d "properties") (.map [])
             widgets := jsOr (getField d "widgets") (.seq []) }
    | none => none
  else none

/-- `YamlUtils.extractComponents` (yaml-utils.ts:50-66). -/
def extractComponents (files : Files) : List ComponentRec :=
  files.filterMap (fun p => componentOf p.1 p.2)

/-- One iteration of `YamlUtils.extractPages` (yaml-utils.ts:71-81). -/
def pageOf (fn : String) (content : Yaml) : Option PageRec :=
  if strIncludes fn "pages/" = true then
    match getFieldTruthy content "pageDefinition" with
    | some d =>
      some { filename := fn
             name := jsOr (getField d "name") (.str (extractNameFromFilename fn))
             route := getField d "route"
             definition := d
             widgets := jsOr (getField d "widgets") (.seq [])
             actions := jsOr (getField d "actions") (.seq []) }
    | none => none
  else none

/-- `YamlUtils.extractPages` (yaml-utils.ts:68-84). -/
def extractPages (files : Files) : List PageRec :=
  files.filterMap (fun p => pageOf p.1 p.2)

/-- Body of the `forEach` of `YamlUtils.extractCustomCode`
(yaml-utils.ts:104-122): the `if`/`else if` dispatch chain on
`actions/`, `functions/`, `widgets/` for an entry already known to contain
`custom_code/`. -/
def customStep (fn : String) (content : Yaml) (acc : CustomCodeResult) :
    CustomCodeResult :=
  match (if strIncludes fn "actions/" then getFieldTruthy content "actionDefinition" else none) with
  | some d =>
    { acc with actions := acc.actions ++
        [{ filename := fn
           name := getField d "name"
           definition := d
           code := jsOr (getField d "code") (.str "")
           parameters := jsOr (getField d "parameters") (.seq []) }] }
  | none =>
    match (if strIncludes fn "functions/" then getFieldTruthy content "functionDefinition" else none) with
    | some d =>
      { acc with functions := acc.functions ++
          [{ filename := fn
             name := getField d "name"
             definition := d
             code := jsOr (getField d "code") (.str "")
             parameters := jsOr (getField d "parameters") (.seq []) }] }
    | none =>
      match (if strIncludes fn "widgets/" then getFieldTruthy content "widgetDefinition" else none) with
      | some d =>
        { acc with widgets := acc.widgets ++
            [{ filename := fn
               name := getField d "name"
               definition := d
               code := jsOr (getField d "code") (.str "")
               properties := jsOr (getField d "properties") (.seq []) }] }
      | none => acc

/-- The `forEach` fold of `YamlUtils.extractCustomCode` over the mapping. -/
def customFold : Files → CustomCodeResult → CustomCodeResult
  | [], acc => acc
  | (fn, content) :: rest, acc =>
    customFold rest
      (if strIncludes fn "custom_code/" = true then customStep fn content acc else acc)

/-- `YamlUtils.extractCustomCode` (yaml-utils.ts:86-129). -/
def extractCustomCode (files : Files) : CustomCodeResult :=
  customFold files ⟨[], [], []⟩

/-- One record of the multi-collection layout (yaml-utils.ts:146-153):
`collectionData.fields` / `collectionData.indexes` are plain property
accesses, so a null collection value throws a TypeError. -/
def collectionRecOfEntry (fn : String) (p : String × Yaml) : Except String CollectionRec :=
  match getFieldPlain p.2 "fields" with
  | .ok f =>
    match getFieldPlain p.2 "indexes" with
    | .ok i =>
      .ok { filename := fn, name := .str p.1, definition := p.2
            fields := jsOr f (.seq []), indexes := jsOr i (.seq []) }
    | .error e => .error e
  | .error e => .error e

/-- The inner `forEach` over the entries of a `collections` map, aborting at
the first null collection value. -/
def collectionRecsOf (fn : String) : List (String × Yaml) → Except String (List CollectionRec)
  | [] => .ok []
  | p :: rest =>
    match collectionRecOfEntry fn p with
    | .ok r =>
      match collectionRecsOf fn rest with
      | .ok rs => .ok (r :: rs)
      | .error e => .error e
    | .error e => .error e

/-- Body of the `forEach` of `YamlUtils.extractDatabaseCollections`
(yaml-utils.ts:135-155): per-file layout first, otherwise the
multi-collection layout keyed by a truthy top-level `collections` value. -/
def collectionsStep (fn : String) (content : Yaml) (acc : List CollectionRec) :
    Except String (List CollectionRec) :=
  match (if strIncludes fn "collections/" then getFieldTruthy content "collectionDefinition" else none) with
  | some d =>
    .ok (acc ++ [{ filename := fn
                   name := jsOr (getField d "name") (.str (extractNameFromFilename fn))
                   definition := d
                   fields := jsOr (getField d "fields") (.seq [])
                   indexes := jsOr (getField d "indexes") (.seq []) }])
  | none =>
    match getFieldTruthy content "collections" with
    | some c =>
      match collectionRecsOf fn (objEntries c) with
      | .ok rs => .ok (acc ++ rs)
      | .error e => .error e
    | none => .ok acc

/-- The `forEach` fold of `YamlUtils.extractDatabaseCollections`; a thrown
TypeError aborts the whole extraction. -/
def collFold : Files → List CollectionRec → Except String (List CollectionRec)
  | [], acc => .ok acc
  | (fn, content) :: rest, acc =>
    match collectionsStep fn content acc with
    | .ok acc' => collFold rest acc'
    | .error e => .error e

/-- `YamlUtils.extractDatabaseCollections` (yaml-utils.ts:131-158). -/
def extractDatabaseCollections (files : Files) : Except String (List CollectionRec) :=
  collFold files []

/-- The projection `{variables: f.variables || [], dataTypes: …, constants: …}`
applied by `YamlUtils.extractAppState` to the chosen app-state document. -/
def projectAppStateDoc (doc : Yaml) : AppStateRec :=
  ⟨jsOr (getField doc "variables") (.seq []),
   jsOr (getField doc "dataTypes") (.seq []),
   jsOr (getField doc "constants") (.seq [])⟩

/-- `YamlUtils.extractAppState` (yaml-utils.ts:160-167):
`files['app-state.yaml'] || files['appState.yaml']`, then the truthiness
ternary projecting the chosen document or returning null. -/
def extractAppState (files : Files) : Option AppStateRec :=
  let a := lookupKey "app-state.yaml" files
  let appStateFile := if jsTruthyOpt a then a else lookupKey "appState.yaml" files
  match appStateFile with
  | some doc => if truthy doc then some (projectAppStateDoc doc) else none
  | none => none

/-- JS `content?.wrapperKey?.name === entityName` where `entityName` is a
string: strict equality holds exactly when the resolved value is a string
with the same contents. -/
def nameEquals (v : Option Yaml) (n : String) : Bool :=
  match v with
  | some (.str s) => s = n
  | _ => false

/-- The match condition of `YamlUtils.updateComponent` / `updatePage`
(yaml-utils.ts:172-174, 192-194): path contains the kind's fragment, and
either the wrapper `name` strict-equals the identifier or the
filename-derived name equals it. -/
def matchesEntity (pathFrag wkey entityName fn : String) (content : Yaml) : Bool :=
  strIncludes fn pathFrag &&
    (nameEquals ((getField content wkey).bind (fun d => getField d "name")) entityName ||
     extractNameFromFilename fn = entityName)

/-- The replacement document built by `updateComponent` / `updatePage` on a
match with a non-null document: `{...content, wkey: {...content[wkey],
...updates}}`. -/
def mergedPure (wkey : String) (content : Yaml) (updates : List (String × Yaml)) : Yaml :=
  .map (setKey (objEntries content) wkey
          (.map (spreadMerge (objEntriesOpt (getField content wkey)) updates)))

/-- The replacement document literal evaluated on a match
(yaml-utils.ts:174-181, 194-201): `content[wkey]` is a plain property
access, so a matched null document throws a TypeError. -/
def mergedContent (wkey : String) (content : Yaml) (updates : List (String × Yaml)) :
    Except String Yaml :=
  match getFieldPlain content wkey with
  | .ok w => .ok (.map (setKey (objEntries content) wkey
      (.map (spreadMerge (objEntriesOpt w) updates))))
  | .error e => .error e

/-- The `forEach` of `updateComponent` / `updatePage`: each matched entry is
replaced by the merge literal — whose evaluation throws on a null matched
document, aborting the whole call with no mapping returned — and every other
entry is kept. -/
def updateEntriesAux (pathFrag wkey entityName : String)
    (updates : List (String × Yaml)) : Files → Except String Files
  | [] => .ok []
  | (fn, c) :: rest =>
    if matchesEntity pathFrag wkey entityName fn c = true then
      match mergedContent wkey c updates with
      | .ok c' =>
        match updateEntriesAux pathFrag wkey entityName updates rest with
        | .ok r => .ok ((fn, c') :: r)
        | .error e => .error e
      | .error e => .error e
    else
      match updateEntriesAux pathFrag wkey entityName updates rest with
      | .ok r => .ok ((fn, c) :: r)
      | .error e => .error e

/-- Common shape of `YamlUtils.updateComponent` (yaml-utils.ts:169-187) and
`YamlUtils.updatePage` (yaml-utils.ts:189-207), which are textually identical
up to the path fragment and wrapper key. -/
def updateEntityGeneric (pathFrag wkey : String) (files : Files)
    (entityName : String) (updates : List (String × Yaml)) : Except String Files :=
  updateEntriesAux pathFrag wkey entityName updates files

/-- `YamlUtils.updateComponent` (yaml-utils.ts:169-187). -/
def updateComponent (files : Files) (componentName : String)
    (updates : List (String × Yaml)) : Except String Files :=
  updateEntityGeneric "components/" "componentDefinition" files componentName updates

/-- `YamlUtils.updatePage` (yaml-utils.ts:189-207). -/
def updatePage (files : Files) (pageName : String)
    (updates : List (String × Yaml)) : Except String Files :=
  updateEntityGeneric "pages/" "pageDefinition" files pageName updates

/-- Common shape of the three add operations (yaml-utils.ts:209-246):
insert `{wkey: {name, ...definition}}` at the synthesized path, the
object-literal semantics making any `name` field of `definition` override
the explicit one. -/
def addEntityGeneric (pathPrefix wkey : String) (files : Files)
    (name : String) (defn : Yaml) : Files :=
  setKey files (pathPrefix ++ name ++ ".yaml")
    (.map [(wkey, .map (spreadMerge [("name", .str name)] (objEntries defn)))])

/-- `YamlUtils.addCustomAction` (yaml-utils.ts:209-220). -/
def addCustomAction (files : Files) (actionName : String) (actionDefinition : Yaml) : Files :=
  addEntityGeneric "custom_code/actions/" "actionDefinition" files actionName actionDefinition

/-- `YamlUtils.addCustomFunction` (yaml-utils.ts:222-233). -/
def addCustomFunction (files : Files) (functionName : String) (functionDefinition : Yaml) : Files :=
  addEntityGeneric "custom_code/functions/" "functionDefinition" files functionName functionDefinition

/-- `YamlUtils.addDatabaseCollection` (yaml-utils.ts:235-246). -/
def addDatabaseCollection (files : Files) (collectionName : String) (collectionDefinition : Yaml) : Files :=
  addEntityGeneric "collections/" "collectionDefinition" files collectionName collectionDefinition

/-!
### The structured-text serialization layer

`decodeProjectYaml` / `encodeProjectYaml` delegate document serialization to
the YAML library (`yaml.load` / `yaml.dump`) and archive handling to the zip
library; neither library is part of this repository.  The document text is
modelled as a token stream (`List YTok`), with a concrete serializer
`dumpYaml` and parser `loadYaml` standing in for `yaml.dump` / `yaml.load`;
the library contract the spec relies on — dumping any supported value yields
text that loads back to an equal value, while arbitrary text may fail to
load — is proved for this pair below (`loadYaml_dumpYaml`), so nothing about
the round trip is assumed.  The archive is a list of named entries, and the
base64/zip failure modes are the non-`archive` constructors of `Blob`.
-/

/-- One token of the serialized document text. -/
inductive YTok where
  | vstr : String → YTok
  | vnum : Int → YTok
  | vbool : Bool → YTok
  | vnull : YTok
  | seqOpen : YTok
  | mapOpen : YTok
  | close : YTok
  | item : YTok
  | key : String → YTok
deriving DecidableEq, Repr

mutual

/-- Serializer for one document (the model of `yaml.dump`). -/
def dumpToks : Yaml → List YTok
  | .str s => [.vstr s]
  | .num n => [.vnum n]
  | .bool b => [.vbool b]
  | .null => [.vnull]
  | .seq xs => .seqOpen :: (dumpSeqToks xs ++ [.close])
  | .map kvs => .mapOpen :: (dumpMapToks kvs ++ [.close])

/-- Serializer for the elements of a sequence. -/
def dumpSeqToks : List Yaml → List YTok
  | [] => []
  | y :: ys => .item :: (dumpToks y ++ dumpSeqToks ys)

/-- Serializer for the entries of a map. -/
def dumpMapToks : List (String × Yaml) → List YTok
  | [] => []
  | (k, v) :: kvs => .key k :: (dumpToks v ++ dumpMapToks kvs)

end

mutual

/-- Fuel-indexed parser for one value (the model of `yaml.load`); returns the
parsed value and the remaining tokens, or `none` on malformed input. -/
def parseVal : Nat → List YTok → Option (Yaml × List YTok)
  | 0, _ => none
  | _ + 1, [] => none
  | _ + 1, .vstr s :: ts => some (.str s, ts)
  | _ + 1, .vnum n :: ts => some (.num n, ts)
  | _ + 1, .vbool b :: ts => some (.bool b, ts)
  | _ + 1, .vnull :: ts => some (.null, ts)
  | fuel + 1, .seqOpen :: ts =>
    match parseSeqItems fuel ts with
    | some (xs, r) => some (.seq xs, r)
    | none => none
  | fuel + 1, .mapOpen :: ts =>
    match parseMapItems fuel ts with
    | some (kvs, r) => some (.map kvs, r)
    | none => none
  | _ + 1, .close :: _ => none
  | _ + 1, .item :: _ => none
  | _ + 1, .key _ :: _ => none

/-- Parser for the elements of a sequence, up to the closing token. -/
def parseSeqItems : Nat → List YTok → Option (List Yaml × List YTok)
  | 0, _ => none
  | _ + 1, [] => none
  | _ + 1, .close :: ts => some ([], ts)
  | fuel + 1, .item :: ts =>
    match parseVal fuel ts with
    | some (y, r) =>
      match parseSeqItems fuel r with
      | some (ys, r') => some (y :: ys, r')
      | none => none
    | none => none
  | _ + 1, _ :: _ => none

/-- Parser for the entries of a map, up to the closing token. -/
def parseMapItems : Nat → List YTok → Option (List (String × Yaml) × List YTok)
  | 0, _ => none
  | _ + 1, [] => none
  | _ + 1, .close :: ts => some ([], ts)
  | fuel + 1, .key k :: ts =>
    match parseVal fuel ts with
    | some (v, r) =>
      match parseMapItems fuel r with
      | some (kvs, r') => some ((k, v) :: kvs, r')
      | none => none
    | none => none
  | _ + 1, _ :: _ => none

end

/-- The model of `yaml.dump` on one document. -/
def dumpYaml : Yaml → List YTok := dumpToks

/-- The model of `yaml.load` on one document text: a full parse of the
token stream, `none` modelling a thrown parse error. -/
def loadYaml (data : List YTok) : Option Yaml :=
  match parseVal (data.length + 1) data with
  | some (y, []) => some y
  | _ => none

/-- One archive entry as exposed by the zip library: a name, a directory
flag, and the entry's text. -/
structure ZipEntry where
  entryName : String
  isDirectory : Bool
  data : List YTok
deriving DecidableEq, Repr

/-- The transport blob handed to `decodeProjectYaml`: either text that fails
base64/zip opening, or a readable archive with its entries in order. -/
inductive Blob where
  | invalidBase64 : Blob
  | invalidArchive : Blob
  | archive : List ZipEntry → Blob

/-- The entry loop of `YamlUtils.decodeProjectYaml` (yaml-utils.ts:17-23):
non-directory entries named `*.yaml` are parsed and assigned into the result
object; other entries are skipped; a parse failure throws, aborting the whole
decode (the outer catch rethrows a `Failed to decode project YAML` error). -/
def decodeEntries : List ZipEntry → Files → Except String Files
  | [], acc => .ok acc
  | e :: es, acc =>
    if e.isDirectory = false ∧ strEndsWith e.entryName ".yaml" = true then
      match loadYaml e.data with
      | some y => decodeEntries es (setKey acc e.entryName y)
      | none => .error ("Failed to decode project YAML: bad entry " ++ e.entryName)
    else decodeEntries es acc

/-- `YamlUtils.decodeProjectYaml` (yaml-utils.ts:10-29). -/
def decodeProjectYaml : Blob → Except String Files
  | .invalidBase64 => .error "Failed to decode project YAML: invalid base64"
  | .invalidArchive => .error "Failed to decode project YAML: invalid archive"
  | .archive entries => decodeEntries entries []

/-- `YamlUtils.encodeProjectYaml` (yaml-utils.ts:31-48): every mapping entry
is dumped and stored as a (non-directory) archive entry at its path. -/
def encodeProjectYaml (files : Files) : Blob :=
  .archive (files.map (fun p => ⟨p.1, false, dumpYaml p.2⟩))

/-! ### Serialization round-trip -/

theorem dumpToks_length_pos (y : Yaml) : 1 ≤ (dumpToks y).length := by
  cases y <;> simp [dumpToks]

/-- Parser correctness on serializer output, all three parsers at once, by
induction on the fuel. -/
theorem parse_dump (fuel : Nat) :
    (∀ (y : Yaml) (rest : List YTok), (dumpToks y).length ≤ fuel →
      parseVal fuel (dumpToks y ++ rest) = some (y, rest)) ∧
    (∀ (ys : List Yaml) (rest : List YTok), (dumpSeqToks ys).length < fuel →
      parseSeqItems fuel (dumpSeqToks ys ++ YTok.close :: rest) = some (ys, rest)) ∧
    (∀ (kvs : List (String × Yaml)) (rest : List YTok), (dumpMapToks kvs).length < fuel →
      parseMapItems fuel (dumpMapToks kvs ++ YTok.close :: rest) = some (kvs, rest)) := by
  induction fuel with
  | zero =>
    refine ⟨fun y rest h => absurd h ?_, fun ys rest h => absurd h (by omega),
      fun kvs rest h => absurd h (by omega)⟩
    have := dumpToks_length_pos y
    omega
  | succ fuel ih =>
    obtain ⟨ih1, ih2, ih3⟩ := ih
    refine ⟨fun y rest h => ?_, fun ys rest h => ?_, fun kvs rest h => ?_⟩
    · cases y with
      | str s => simp [dumpToks, parseVal]
      | num n => simp [dumpToks, parseVal]
      | bool b => simp [dumpToks, parseVal]
      | null => simp [dumpToks, parseVal]
      | seq xs =>
        have hlen : (dumpSeqToks xs).length < fuel := by
          simp [dumpToks] at h; omega
        have : dumpToks (Yaml.seq xs) ++ rest =
            YTok.seqOpen :: (dumpSeqToks xs ++ YTok.close :: rest) := by
          simp [dumpToks]
        rw [this, parseVal, ih2 xs rest hlen]
      | map kvs =>
        have hlen : (dumpMapToks kvs).length < fuel := by
          simp [dumpToks] at h; omega
        have : dumpToks (Yaml.map kvs) ++ rest =
            YTok.mapOpen :: (dumpMapToks kvs ++ YTok.close :: rest) := by
          simp [dumpToks]
        rw [this, parseVal, ih3 kvs rest hlen]
    · cases ys with
      | nil => simp [dumpSeqToks, parseSeqItems]
      | cons y ys =>
        have hy : (dumpToks y).length ≤ fuel := by
          simp [dumpSeqToks] at h; omega
        have hys : (dumpSeqToks ys).length < fuel := by
          simp [dumpSeqToks] at h; omega
        have : dumpSeqToks (y :: ys) ++ YTok.close :: rest =
            YTok.item :: (dumpToks y ++ (dumpSeqToks ys ++ YTok.close :: rest)) := by
          simp [dumpSeqToks]
        rw [this, parseSeqItems, ih1 y _ hy]
        simp [ih2 ys rest hys]
    · cases kvs with
      | nil => simp [dumpMapToks, parseMapItems]
      | cons kv kvs =>
        obtain ⟨k, v⟩ := kv
        have hv : (dumpToks v).length ≤ fuel := by
          simp [dumpMapToks] at h; omega
        have hkvs : (dumpMapToks kvs).length < fuel := by
          simp [dumpMapToks] at h; omega
        have : dumpMapToks ((k, v) :: kvs) ++ YTok.close :: rest =
            YTok.key k :: (dumpToks v ++ (dumpMapToks kvs ++ YTok.close :: rest)) := by
          simp [dumpMapToks]
        rw [this, parseMapItems, ih1 v _ hv]
        simp [ih3 kvs rest hkvs]

/-- The serialization layer's round-trip: loading the dump of any supported
value yields that value back. -/
theorem loadYaml_dumpYaml (y : Yaml) : loadYaml (dumpYaml y) = some y := by
  have h := (parse_dump ((dumpToks y).length + 1)).1 y [] (by omega)
  rw [List.append_nil] at h
  simp [loadYaml, dumpYaml, h]

/-! ### Association-list lemmas (JS object semantics) -/

theorem lookupKey_setKey_self (l : List (String × Yaml)) (k : String) (v : Yaml) :
    lookupKey k (setKey l k v) = some v := by
  induction l with
  | nil => simp [setKey, lookupKey]
  | cons p rest ih =>
    obtain ⟨k', v'⟩ := p
    by_cases h : k' = k
    · simp [setKey, h, lookupKey]
    · simp [setKey, h, lookupKey, ih]

theorem lookupKey_setKey_ne (l : List (String × Yaml)) (k k' : String) (v : Yaml)
    (h : k' ≠ k) : lookupKey k' (setKey l k v) = lookupKey k' l := by
  induction l with
  | nil => simp [setKey, lookupKey, Ne.symm h]
  | cons p rest ih =>
    obtain ⟨k0, v0⟩ := p
    by_cases h0 : k0 = k
    · subst h0
      simp [setKey, lookupKey, Ne.symm h]
    · simp [setKey, h0, lookupKey, ih]

theorem setKey_notMem (l : List (String × Yaml)) (k : String) (v : Yaml)
    (h : k ∉ l.map Prod.fst) : setKey l k v = l ++ [(k, v)] := by
  induction l with
  | nil => simp [setKey]
  | cons p rest ih =>
    obtain ⟨k0, v0⟩ := p
    simp only [List.map_cons, List.mem_cons] at h
    push_neg at h
    simp [setKey, Ne.symm h.1, ih h.2]

theorem lookupKey_spreadMerge_notMem (base extra : List (String × Yaml)) (k : String)
    (h : k ∉ extra.map Prod.fst) :
    lookupKey k (spreadMerge base extra) = lookupKey k base := by
  induction extra generalizing base with
  | nil => simp [spreadMerge]
  | cons p rest ih =>
    obtain ⟨k0, v0⟩ := p
    simp only [List.map_cons, List.mem_cons] at h
    push_neg at h
    have : spreadMerge base ((k0, v0) :: rest) = spreadMerge (setKey base k0 v0) rest := by
      simp [spreadMerge, List.foldl_cons]
    rw [this, ih _ h.2, lookupKey_setKey_ne _ _ _ _ h.1]

theorem lookupKey_spreadMerge_mem (base extra : List (String × Yaml)) (k : String) (v : Yaml)
    (hnd : (extra.map Prod.fst).Nodup) (h : (k, v) ∈ extra) :
    lookupKey k (spreadMerge base extra) = some v := by
  induction extra generalizing base with
  | nil => simp at h
  | cons p rest ih =>
    obtain ⟨k0, v0⟩ := p
    have hstep : spreadMerge base ((k0, v0) :: rest) = spreadMerge (setKey base k0 v0) rest := by
      simp [spreadMerge, List.foldl_cons]
    simp only [List.map_cons, List.nodup_cons] at hnd
    rcases List.mem_cons.mp h with heq | hmem
    · cases heq
      have hk : k ∉ rest.map Prod.fst := hnd.1
      rw [hstep, lookupKey_spreadMerge_notMem _ _ _ hk, lookupKey_setKey_self]
    · rw [hstep, ih _ hnd.2 hmem]

/-! ### Decode of an encode -/

/-- Processing the encoded entries of a mapping with unique keys replays the
mapping entry by entry onto the accumulator. -/
theorem decodeEntries_encode (files : Files) : ∀ acc : Files,
    (acc.map Prod.fst ++ files.map Prod.fst).Nodup →
    (∀ p ∈ files, strEndsWith p.1 ".yaml" = true) →
    decodeEntries (files.map (fun p => ⟨p.1, false, dumpYaml p.2⟩)) acc = .ok (acc ++ files) := by
  induction files with
  | nil => intro acc _ _; simp [decodeEntries]
  | cons p rest ih =>
    intro acc hnd hy
    obtain ⟨n, c⟩ := p
    have hyn : strEndsWith n ".yaml" = true := hy (n, c) (List.mem_cons_self _ _)
    have hnotin : n ∉ acc.map Prod.fst := by
      intro hmem
      exact (List.nodup_append.mp hnd).2.2 hmem (by simp)
    have hstep : decodeEntries (((n, c) :: rest).map (fun p => ⟨p.1, false, dumpYaml p.2⟩)) acc
        = decodeEntries (rest.map (fun p => ⟨p.1, false, dumpYaml p.2⟩)) (setKey acc n c) := by
      simp [decodeEntries, hyn, loadYaml_dumpYaml]
    have hnd' : ((acc ++ [(n, c)]).map Prod.fst ++ rest.map Prod.fst).Nodup := by
      simpa [List.append_assoc] using hnd
    rw [hstep, setKey_notMem _ _ _ hnotin,
      ih (acc ++ [(n, c)]) hnd' (fun p hp => hy p (List.mem_cons_of_mem _ hp))]
    simp

/-- Decoding skips exactly the entries that are directories or whose name
does not end in `.yaml`. -/
theorem decodeEntries_filter (es : List ZipEntry) : ∀ acc,
    decodeEntries es acc =
      decodeEntries (es.filter (fun e => !e.isDirectory && strEndsWith e.entryName ".yaml")) acc := by
  induction es with
  | nil => intro acc; rfl
  | cons e es ih =>
    intro acc
    by_cases hcond : e.isDirectory = false ∧ strEndsWith e.entryName ".yaml" = true
    · have hf : (!e.isDirectory && strEndsWith e.entryName ".yaml") = true := by
        simp [hcond.1, hcond.2]
      simp only [List.filter_cons, hf, if_true]
      rw [decodeEntries, decodeEntries, if_pos hcond, if_pos hcond]
      cases hload : loadYaml e.data
      · rfl
      · exact ih _
    · have hf : (!e.isDirectory && strEndsWith e.entryName ".yaml") = false := by
        cases hd : e.isDirectory <;> cases hs : strEndsWith e.entryName ".yaml" <;> simp_all
      simp only [List.filter_cons, hf, Bool.false_eq_true, if_false]
      rw [decodeEntries, if_neg hcond]
      exact ih acc

/-- A non-directory `.yaml` entry whose content does not parse aborts the
whole decode with an error. -/
theorem decodeEntries_error (es : List ZipEntry) : ∀ acc,
    (∃ e ∈ es, e.isDirectory = false ∧ strEndsWith e.entryName ".yaml" = true ∧ loadYaml e.data = none) →
    ∃ msg, decodeEntries es acc = .error msg := by
  induction es with
  | nil => intro acc h; simp at h
  | cons e es ih =>
    intro acc h
    by_cases hcond : e.isDirectory = false ∧ strEndsWith e.entryName ".yaml" = true
    · cases hload : loadYaml e.data with
      | none =>
        refine ⟨"Failed to decode project YAML: bad entry " ++ e.entryName, ?_⟩
        rw [decodeEntries, if_pos hcond, hload]
      | some y =>
        rcases h with ⟨e', he', hcond'⟩
        rcases List.mem_cons.mp he' with rfl | hmem
        · rw [hcond'.2.2] at hload; cases hload
        · rcases ih (setKey acc e.entryName y) ⟨e', hmem, hcond'⟩ with ⟨msg, hmsg⟩
          refine ⟨msg, ?_⟩
          rw [decodeEntries, if_pos hcond, hload]
          exact hmsg
    · rcases h with ⟨e', he', hcond'⟩
      rcases List.mem_cons.mp he' with rfl | hmem
      · exact absurd ⟨hcond'.1, hcond'.2.1⟩ hcond
      · rcases ih acc ⟨e', hmem, hcond'⟩ with ⟨msg, hmsg⟩
        refine ⟨msg, ?_⟩
        rw [decodeEntries, if_neg hcond, hmsg]

/-! ### Claim C1 (round-trip) -/

/-- C1 counterexample: the round trip is not the identity for every mapping
with supported values.  The mapping `{"a": null}` has a supported value but a
key not ending in `.yaml`; encode stores it, decode silently skips it, so
`decode(encode(m))` is the empty mapping, not `m`. -/
theorem C1_counterexample :
    decodeProjectYaml (encodeProjectYaml [("a", Yaml.null)]) = .ok [] ∧
    (Except.ok ([] : Files) : Except String Files) ≠ .ok [("a", Yaml.null)] :=
  ⟨rfl, by simp⟩

/-- C1 (amended): for every mapping with unique keys all ending in `.yaml`
— which covers every mapping producible by decode and by the mutator
operations from such mappings, and the empty mapping — decoding the encoding
yields the mapping back, entry for entry. -/
theorem C1_roundtrip (files : Files)
    (hnd : (files.map Prod.fst).Nodup)
    (hext : ∀ p ∈ files, strEndsWith p.1 ".yaml" = true) :
    decodeProjectYaml (encodeProjectYaml files) = .ok files := by
  have h := decodeEntries_encode files [] (by simpa using hnd) hext
  simpa [decodeProjectYaml, encodeProjectYaml] using h

/-- C1 witness: the round trip evaluated on a concrete two-document mapping. -/
theorem C1_roundtrip_witness :
    decodeProjectYaml (encodeProjectYaml
      [("components/a.yaml", Yaml.map [("x", Yaml.num 3)]), ("app-state.yaml", Yaml.null)]) =
      .ok [("components/a.yaml", Yaml.map [("x", Yaml.num 3)]), ("app-state.yaml", Yaml.null)] :=
  C1_roundtrip _ (by decide) (by decide)

/-! ### Claim C5 (decode failure behaviour) -/

/-- C5 counterexample: an archive containing an entry with a non-`.yaml`
extension does NOT fail the decode; the entry is silently skipped and a
partial mapping (covering only the `.yaml` entries) is returned. -/
theorem C5_counterexample :
    strEndsWith "b.txt" ".yaml" = false ∧
    decodeProjectYaml (Blob.archive
      [⟨"a.yaml", false, dumpYaml Yaml.null⟩, ⟨"b.txt", false, dumpYaml Yaml.null⟩]) =
      .ok [("a.yaml", Yaml.null)] :=
  ⟨rfl, rfl⟩

/-- C5 (amended): decode fails as a whole — returning no partial mapping —
on invalid base64, on an invalid archive, and whenever a non-directory
`.yaml` entry's content does not parse; entries with other extensions and
directory entries are instead silently skipped, so decoding equals decoding
the archive restricted to its non-directory `.yaml` entries. -/
theorem C5_decode_errors :
    decodeProjectYaml Blob.invalidBase64 =
      .error "Failed to decode project YAML: invalid base64" ∧
    decodeProjectYaml Blob.invalidArchive =
      .error "Failed to decode project YAML: invalid archive" ∧
    (∀ entries : List ZipEntry,
      (∃ e ∈ entries, e.isDirectory = false ∧ strEndsWith e.entryName ".yaml" = true ∧
        loadYaml e.data = none) →
      ∃ msg, decodeProjectYaml (.archive entries) = .error msg) ∧
    (∀ entries : List ZipEntry,
      decodeProjectYaml (.archive entries) =
        decodeProjectYaml (.archive
          (entries.filter (fun e => !e.isDirectory && strEndsWith e.entryName ".yaml")))) :=
  ⟨rfl, rfl, fun entries h => decodeEntries_error entries [] h,
   fun entries => decodeEntries_filter entries []⟩

/-- C5 witness: a concrete archive with an unparseable `.yaml` entry makes
the whole decode fail. -/
theorem C5_decode_errors_witness :
    ∃ msg, decodeProjectYaml (Blob.archive [⟨"bad.yaml", false, [YTok.close]⟩]) = .error msg :=
  C5_decode_errors.2.2.1 [⟨"bad.yaml", false, [YTok.close]⟩]
    ⟨⟨"bad.yaml", false, [YTok.close]⟩, by simp, rfl, rfl, rfl⟩

/-! ### Mutation-layer lemmas -/

/-- The resolved `name` field of the wrapper sub-document stored at `path`. -/
def docWrapperName (files : Files) (path wk : String) : Option Yaml :=
  (lookupKey path files).bind (fun doc => (getField doc wk).bind (fun d => getField d "name"))

theorem addEntity_wrapperName (pp wk : String) (files : Files) (n : String) (defn : Yaml) :
    docWrapperName (addEntityGeneric pp wk files n defn) (pp ++ n ++ ".yaml") wk =
      lookupKey "name" (spreadMerge [("name", .str n)] (objEntries defn)) := by
  unfold docWrapperName addEntityGeneric
  rw [lookupKey_setKey_self]
  simp [getField, lookupKey]

/-- The merge literal succeeds exactly on non-null documents, yielding the
pure merged document. -/
theorem mergedContent_of_notNull (wk : String) (c : Yaml) (u : List (String × Yaml))
    (h : isNull c = false) : mergedContent wk c u = .ok (mergedPure wk c u) := by
  cases c <;> simp_all [isNull, mergedContent, mergedPure, getFieldPlain, getField]

/-- Whenever the merge literal succeeds, its value is the pure merged
document. -/
theorem mergedContent_ok_eq (wk : String) (c : Yaml) (u : List (String × Yaml))
    (y : Yaml) (h : mergedContent wk c u = .ok y) : y = mergedPure wk c u := by
  cases c <;> simp_all [mergedContent, mergedPure, getFieldPlain, getField]

/-- When every matched document is non-null, the update succeeds and rewrites
exactly the matched entries. -/
theorem updateEntriesAux_ok (pf wk n : String) (patch : List (String × Yaml)) :
    ∀ files : Files,
      (∀ p ∈ files, matchesEntity pf wk n p.1 p.2 = true → isNull p.2 = false) →
      updateEntriesAux pf wk n patch files =
        .ok (files.map (fun p =>
          if matchesEntity pf wk n p.1 p.2 = true
          then (p.1, mergedPure wk p.2 patch) else p)) := by
  intro files
  induction files with
  | nil => intro _; rfl
  | cons p rest ih =>
    intro hsafe
    obtain ⟨fn, c⟩ := p
    have hrest := ih (fun q hq hm => hsafe q (List.mem_cons_of_mem _ hq) hm)
    by_cases hm : matchesEntity pf wk n fn c = true
    · have hnn : isNull c = false := hsafe (fn, c) (List.mem_cons_self _ _) hm
      rw [updateEntriesAux, if_pos hm, mergedContent_of_notNull wk c patch hnn, hrest]
      simp [hm]
    · rw [updateEntriesAux, if_neg hm, hrest]
      simp [hm]

/-- When the update returns a mapping at all, every matched entry appears in
it merged. -/
theorem updateEntriesAux_mem (pf wk n : String) (patch : List (String × Yaml))
    (fn : String) (c : Yaml)
    (hmatch : matchesEntity pf wk n fn c = true) :
    ∀ (files result : Files), (fn, c) ∈ files →
      updateEntriesAux pf wk n patch files = .ok result →
      (fn, mergedPure wk c patch) ∈ result := by
  intro files
  induction files with
  | nil => intro result h; simp at h
  | cons q rest ih =>
    intro result hmem hok
    obtain ⟨fn', c'⟩ := q
    rcases List.mem_cons.mp hmem with heq | hmem'
    · cases heq
      rw [updateEntriesAux, if_pos hmatch] at hok
      cases hmc : mergedContent wk c patch with
      | error e => rw [hmc] at hok; cases hok
      | ok c2 =>
        rw [hmc] at hok
        cases hrest : updateEntriesAux pf wk n patch rest with
        | error e => rw [hrest] at hok; cases hok
        | ok r =>
          rw [hrest] at hok
          cases hok
          rw [show c2 = mergedPure wk c patch from mergedContent_ok_eq wk c patch c2 hmc]
          exact List.mem_cons_self _ _
    · rw [updateEntriesAux] at hok
      by_cases hm' : matchesEntity pf wk n fn' c' = true
      · rw [if_pos hm'] at hok
        cases hmc : mergedContent wk c' patch with
        | error e => rw [hmc] at hok; cases hok
        | ok c2 =>
          rw [hmc] at hok
          cases hrest : updateEntriesAux pf wk n patch rest with
          | error e => rw [hrest] at hok; cases hok
          | ok r =>
            rw [hrest] at hok
            cases hok
            exact List.mem_cons_of_mem _ (ih r hmem' hrest)
      · rw [if_neg hm'] at hok
        cases hrest : updateEntriesAux pf wk n patch rest with
        | error e => rw [hrest] at hok; cases hok
        | ok r =>
          rw [hrest] at hok
          cases hok
          exact List.mem_cons_of_mem _ (ih r hmem' hrest)

/-- The merged document: the wrapper key now holds the shallow merge, every
other field of the document is untouched. -/
theorem mergedPure_spec (wk : String) (ckvs wkvs patch : List (String × Yaml))
    (hw : lookupKey wk ckvs = some (.map wkvs)) :
    getField (mergedPure wk (.map ckvs) patch) wk = some (.map (spreadMerge wkvs patch)) ∧
    (∀ k, k ≠ wk → getField (mergedPure wk (.map ckvs) patch) k = lookupKey k ckvs) := by
  constructor
  · simp [mergedPure, getField, objEntries, objEntriesOpt, hw, lookupKey_setKey_self]
  · intro k hk
    simp [mergedPure, getField, objEntries, objEntriesOpt, hw,
      lookupKey_setKey_ne _ _ _ _ hk]

/-- Full behaviour of the generic update on a matched entry with a map
wrapper, when no matched document is null: the call succeeds, the patched
document is in the result, every patch field is present in its wrapper,
every wrapper field outside the patch is retained, every document field
outside the wrapper is retained, and every unmatched entry is kept as is. -/
theorem updateGeneric_full (pf wk : String) (files : Files) (n : String)
    (patch : List (String × Yaml)) (fn : String) (ckvs wkvs : List (String × Yaml))
    (hmem : (fn, Yaml.map ckvs) ∈ files)
    (hw : lookupKey wk ckvs = some (.map wkvs))
    (hmatch : matchesEntity pf wk n fn (.map ckvs) = true)
    (hnd : (patch.map Prod.fst).Nodup)
    (hsafe : ∀ p ∈ files, matchesEntity pf wk n p.1 p.2 = true → isNull p.2 = false) :
    ∃ result : Files,
      updateEntityGeneric pf wk files n patch = .ok result ∧
      ((fn, mergedPure wk (.map ckvs) patch) ∈ result) ∧
      (∀ k v, (k, v) ∈ patch →
        (getField (mergedPure wk (.map ckvs) patch) wk).bind (fun d => getField d k) = some v) ∧
      (∀ k, k ∉ patch.map Prod.fst →
        (getField (mergedPure wk (.map ckvs) patch) wk).bind (fun d => getField d k) =
          lookupKey k wkvs) ∧
      (∀ k, k ≠ wk → getField (mergedPure wk (.map ckvs) patch) k = lookupKey k ckvs) ∧
      (∀ p ∈ files, matchesEntity pf wk n p.1 p.2 = false → p ∈ result) := by
  obtain ⟨hwrap, hout⟩ := mergedPure_spec wk ckvs wkvs patch hw
  refine ⟨files.map (fun p =>
      if matchesEntity pf wk n p.1 p.2 = true then (p.1, mergedPure wk p.2 patch) else p),
    ?_, ?_, ?_, ?_, hout, ?_⟩
  · exact updateEntriesAux_ok pf wk n patch files hsafe
  · have h := List.mem_map_of_mem (fun p : String × Yaml =>
      if matchesEntity pf wk n p.1 p.2 = true then (p.1, mergedPure wk p.2 patch) else p) hmem
    simpa [hmatch] using h
  · intro k v hkv
    rw [hwrap]
    simpa [getField] using lookupKey_spreadMerge_mem wkvs patch k v hnd hkv
  · intro k hk
    rw [hwrap]
    simpa [getField] using lookupKey_spreadMerge_notMem wkvs patch k hk
  · intro p hp hfalse
    have h := List.mem_map_of_mem (fun p : String × Yaml =>
      if matchesEntity pf wk n p.1 p.2 = true then (p.1, mergedPure wk p.2 patch) else p) hp
    simpa [hfalse] using h

/-- An update matching no entry succeeds and is the identity. -/
theorem updateGeneric_miss (pf wk : String) (files : Files) (n : String)
    (patch : List (String × Yaml))
    (h : ∀ p ∈ files, matchesEntity pf wk n p.1 p.2 = false) :
    updateEntityGeneric pf wk files n patch = .ok files := by
  have h0 : ∀ p ∈ files, matchesEntity pf wk n p.1 p.2 = true → isNull p.2 = false :=
    fun p hp hm => absurd hm (by simp [h p hp])
  rw [updateEntityGeneric, updateEntriesAux_ok pf wk n patch files h0]
  have heach : ∀ p ∈ files,
      (if matchesEntity pf wk n p.1 p.2 = true then (p.1, mergedPure wk p.2 patch) else p) =
        id p := fun p hp => by simp [h p hp]
  rw [List.map_congr_left heach, List.map_id]

/-! ### Claim C2 (add-entity name precedence) -/

/-- C2 counterexample: the explicit name does NOT win over a `name` field
inside the supplied definition — the object spread `{name, ...definition}`
puts the definition's fields last, so its `name` overrides the explicit one. -/
theorem C2_counterexample :
    docWrapperName (addCustomAction [] "foo" (Yaml.map [("name", Yaml.str "bar")]))
      "custom_code/actions/foo.yaml" "actionDefinition" = some (Yaml.str "bar") ∧
    Yaml.str "bar" ≠ Yaml.str "foo" :=
  ⟨rfl, fun h => absurd (Yaml.str.inj h) (by decide)⟩

/-- C2 (amended): each add operation (`addCustomAction`, `addCustomFunction`,
`addDatabaseCollection`) inserts at the synthesized canonical path —
overwriting any pre-existing document there — a document whose wrapper is
`{name, ...definition}`; the explicitly supplied name is the wrapper's `name`
only when the definition itself has no `name` field, while a `name` field
inside the definition overrides the explicit one. -/
theorem C2_add_name :
    (∀ (files : Files) (n : String) (defn : Yaml),
      "name" ∉ (objEntries defn).map Prod.fst →
      docWrapperName (addCustomAction files n defn)
          ("custom_code/actions/" ++ n ++ ".yaml") "actionDefinition" = some (.str n) ∧
      docWrapperName (addCustomFunction files n defn)
          ("custom_code/functions/" ++ n ++ ".yaml") "functionDefinition" = some (.str n) ∧
      docWrapperName (addDatabaseCollection files n defn)
          ("collections/" ++ n ++ ".yaml") "collectionDefinition" = some (.str n)) ∧
    (∀ (files : Files) (n : String) (defn : Yaml) (v : Yaml),
      ((objEntries defn).map Prod.fst).Nodup → ("name", v) ∈ objEntries defn →
      docWrapperName (addCustomAction files n defn)
          ("custom_code/actions/" ++ n ++ ".yaml") "actionDefinition" = some v ∧
      docWrapperName (addCustomFunction files n defn)
          ("custom_code/functions/" ++ n ++ ".yaml") "functionDefinition" = some v ∧
      docWrapperName (addDatabaseCollection files n defn)
          ("collections/" ++ n ++ ".yaml") "collectionDefinition" = some v) := by
  constructor
  · intro files n defn hno
    have hbase : lookupKey "name" (spreadMerge [("name", Yaml.str n)] (objEntries defn)) =
        some (Yaml.str n) := by
      rw [lookupKey_spreadMerge_notMem _ _ _ hno]
      simp [lookupKey]
    exact ⟨(addEntity_wrapperName _ _ files n defn).trans hbase,
           (addEntity_wrapperName _ _ files n defn).trans hbase,
           (addEntity_wrapperName _ _ files n defn).trans hbase⟩
  · intro files n defn v hnd hv
    have hbase : lookupKey "name" (spreadMerge [("name", Yaml.str n)] (objEntries defn)) =
        some v := lookupKey_spreadMerge_mem _ _ _ _ hnd hv
    exact ⟨(addEntity_wrapperName _ _ files n defn).trans hbase,
           (addEntity_wrapperName _ _ files n defn).trans hbase,
           (addEntity_wrapperName _ _ files n defn).trans hbase⟩

/-- C2 witness: a definition without a `name` field receives the explicit
name in the stored wrapper. -/
theorem C2_add_name_witness :
    docWrapperName (addCustomAction [] "foo" (Yaml.map [("code", Yaml.str "x")]))
      "custom_code/actions/foo.yaml" "actionDefinition" = some (Yaml.str "foo") :=
  (C2_add_name.1 [] "foo" (Yaml.map [("code", Yaml.str "x")]) (by decide)).1

/-! ### Claim C3 (update shallow-merge) -/

/-- C3 counterexample: the mapping below contains a proper component named
`Button` at `components/button.yaml` — the claim's premises — yet
`updateComponent` returns no mapping at all: the null document at
`components/Button.yaml` is also filename-matched by the identifier, and the
plain access `content.componentDefinition` (yaml-utils.ts:179) throws a
TypeError on it. -/
theorem C3_counterexample :
    matchesEntity "components/" "componentDefinition" "Button" "components/button.yaml"
      (Yaml.map [("componentDefinition", Yaml.map [("name", Yaml.str "Button")])]) = true ∧
    updateComponent
      [("components/button.yaml",
        Yaml.map [("componentDefinition", Yaml.map [("name", Yaml.str "Button")])]),
       ("components/Button.yaml", Yaml.null)]
      "Button" [("color", Yaml.str "#fff")] =
      .error "TypeError: Cannot read properties of null" :=
  ⟨rfl, rfl⟩

/-- C3 (amended): provided no identifier-matched document is null (a matched
null document makes the whole call throw a TypeError), `updateComponent` and
`updatePage` succeed and replace each matching document — here one with a map
wrapper — by one whose wrapper contains every patch field, retains every
prior wrapper field not named in the patch, keeps every document field
outside the wrapper, and leave every non-matching mapping entry unchanged. -/
theorem C3_update_merge :
    (∀ (files : Files) (n : String) (patch : List (String × Yaml)) (fn : String)
        (ckvs wkvs : List (String × Yaml)),
      (fn, Yaml.map ckvs) ∈ files →
      lookupKey "componentDefinition" ckvs = some (.map wkvs) →
      matchesEntity "components/" "componentDefinition" n fn (.map ckvs) = true →
      (patch.map Prod.fst).Nodup →
      (∀ p ∈ files, matchesEntity "components/" "componentDefinition" n p.1 p.2 = true →
        isNull p.2 = false) →
      ∃ result : Files,
        updateComponent files n patch = .ok result ∧
        ((fn, mergedPure "componentDefinition" (.map ckvs) patch) ∈ result) ∧
        (∀ k v, (k, v) ∈ patch →
          (getField (mergedPure "componentDefinition" (.map ckvs) patch) "componentDefinition").bind
            (fun d => getField d k) = some v) ∧
        (∀ k, k ∉ patch.map Prod.fst →
          (getField (mergedPure "componentDefinition" (.map ckvs) patch) "componentDefinition").bind
            (fun d => getField d k) = lookupKey k wkvs) ∧
        (∀ k, k ≠ "componentDefinition" →
          getField (mergedPure "componentDefinition" (.map ckvs) patch) k = lookupKey k ckvs) ∧
        (∀ p ∈ files, matchesEntity "components/" "componentDefinition" n p.1 p.2 = false →
          p ∈ result)) ∧
    (∀ (files : Files) (n : String) (patch : List (String × Yaml)) (fn : String)
        (ckvs wkvs : List (String × Yaml)),
      (fn, Yaml.map ckvs) ∈ files →
      lookupKey "pageDefinition" ckvs = some (.map wkvs) →
      matchesEntity "pages/" "pageDefinition" n fn (.map ckvs) = true →
      (patch.map Prod.fst).Nodup →
      (∀ p ∈ files, matchesEntity "pages/" "pageDefinition" n p.1 p.2 = true →
        isNull p.2 = false) →
      ∃ result : Files,
        updatePage files n patch = .ok result ∧
        ((fn, mergedPure "pageDefinition" (.map ckvs) patch) ∈ result) ∧
        (∀ k v, (k, v) ∈ patch →
          (getField (mergedPure "pageDefinition" (.map ckvs) patch) "pageDefinition").bind
            (fun d => getField d k) = some v) ∧
        (∀ k, k ∉ patch.map Prod.fst →
          (getField (mergedPure "pageDefinition" (.map ckvs) patch) "pageDefinition").bind
            (fun d => getField d k) = lookupKey k wkvs) ∧
        (∀ k, k ≠ "pageDefinition" →
          getField (mergedPure "pageDefinition" (.map ckvs) patch) k = lookupKey k ckvs) ∧
        (∀ p ∈ files, matchesEntity "pages/" "pageDefinition" n p.1 p.2 = false →
          p ∈ result)) :=
  ⟨fun files n patch fn ckvs wkvs hmem hw hmatch hnd hsafe =>
      updateGeneric_full "components/" "componentDefinition" files n patch fn ckvs wkvs
        hmem hw hmatch hnd hsafe,
   fun files n patch fn ckvs wkvs hmem hw hmatch hnd hsafe =>
      updateGeneric_full "pages/" "pageDefinition" files n patch fn ckvs wkvs
        hmem hw hmatch hnd hsafe⟩

/-- C3 witness: the spec's example — the component named `Button` at
`components/button.yaml` patched with a `color`: the call succeeds, the
patched document is in the result, the patch field is present, and the prior
`name` field is retained. -/
theorem C3_update_merge_witness :
    (∃ result : Files,
      updateComponent
        [("components/button.yaml",
          Yaml.map [("componentDefinition",
            Yaml.map [("name", Yaml.str "Button"), ("size", Yaml.num 2)])])]
        "Button" [("color", Yaml.str "#fff")] = .ok result ∧
      ("components/button.yaml",
        mergedPure "componentDefinition"
          (Yaml.map [("componentDefinition",
            Yaml.map [("name", Yaml.str "Button"), ("size", Yaml.num 2)])])
          [("color", Yaml.str "#fff")]) ∈ result) ∧
    ((getField (mergedPure "componentDefinition"
        (Yaml.map [("componentDefinition",
          Yaml.map [("name", Yaml.str "Button"), ("size", Yaml.num 2)])])
        [("color", Yaml.str "#fff")]) "componentDefinition").bind
      (fun d => getField d "color") = some (Yaml.str "#fff")) ∧
    ((getField (mergedPure "componentDefinition"
        (Yaml.map [("componentDefinition",
          Yaml.map [("name", Yaml.str "Button"), ("size", Yaml.num 2)])])
        [("color", Yaml.str "#fff")]) "componentDefinition").bind
      (fun d => getField d "name") = some (Yaml.str "Button")) := by
  obtain ⟨result, hok, hmem, hpatch, hkeep, _, _⟩ := C3_update_merge.1
    [("components/button.yaml",
      Yaml.map [("componentDefinition",
        Yaml.map [("name", Yaml.str "Button"), ("size", Yaml.num 2)])])]
    "Button" [("color", Yaml.str "#fff")] "components/button.yaml"
    [("componentDefinition", Yaml.map [("name", Yaml.str "Button"), ("size", Yaml.num 2)])]
    [("name", Yaml.str "Button"), ("size", Yaml.num 2)]
    (by simp) rfl rfl (by decide) (by decide)
  exact ⟨⟨result, hok, hmem⟩, hpatch "color" (Yaml.str "#fff") (by simp),
    hkeep "name" (by decide)⟩

/-! ### Claim C6 (update miss is a no-op) -/

/-- C6: when no document matches the identifier, `updateComponent` and
`updatePage` succeed — the per-entry body, the only partial part, never
runs — and return the input mapping unchanged. -/
theorem C6_update_miss :
    (∀ (files : Files) (n : String) (patch : List (String × Yaml)),
      (∀ p ∈ files, matchesEntity "components/" "componentDefinition" n p.1 p.2 = false) →
      updateComponent files n patch = .ok files) ∧
    (∀ (files : Files) (n : String) (patch : List (String × Yaml)),
      (∀ p ∈ files, matchesEntity "pages/" "pageDefinition" n p.1 p.2 = false) →
      updatePage files n patch = .ok files) :=
  ⟨fun files n patch h => updateGeneric_miss _ _ files n patch h,
   fun files n patch h => updateGeneric_miss _ _ files n patch h⟩

/-- C6 witness: a non-matching identifier leaves a concrete mapping intact. -/
theorem C6_update_miss_witness :
    updateComponent
      [("components/button.yaml",
        Yaml.map [("componentDefinition", Yaml.map [("name", Yaml.str "Button")])])]
      "Missing" [("color", Yaml.str "#fff")] =
      .ok [("components/button.yaml",
        Yaml.map [("componentDefinition", Yaml.map [("name", Yaml.str "Button")])])] :=
  C6_update_miss.1 _ "Missing" _ (by decide)

/-! ### Claim C4 (app-state precedence) -/

/-- C4 counterexample: with both reserved paths present, the result is NOT
always projected from `app-state.yaml` — JS truthiness in
`files['app-state.yaml'] || files['appState.yaml']` makes a present-but-null
`app-state.yaml` fall through to `appState.yaml`. -/
theorem C4_counterexample :
    lookupKey "app-state.yaml"
      [("app-state.yaml", Yaml.null),
       ("appState.yaml", Yaml.map [("variables", Yaml.seq [Yaml.str "x"])])] = some Yaml.null ∧
    lookupKey "appState.yaml"
      [("app-state.yaml", Yaml.null),
       ("appState.yaml", Yaml.map [("variables", Yaml.seq [Yaml.str "x"])])] =
      some (Yaml.map [("variables", Yaml.seq [Yaml.str "x"])]) ∧
    extractAppState
      [("app-state.yaml", Yaml.null),
       ("appState.yaml", Yaml.map [("variables", Yaml.seq [Yaml.str "x"])])] ≠
      some (projectAppStateDoc Yaml.null) := by
  refine ⟨rfl, rfl, ?_⟩
  intro h
  rw [show extractAppState
      [("app-state.yaml", Yaml.null),
       ("appState.yaml", Yaml.map [("variables", Yaml.seq [Yaml.str "x"])])] =
      some ⟨Yaml.seq [Yaml.str "x"], Yaml.seq [], Yaml.seq []⟩ from rfl] at h
  simp [projectAppStateDoc, getField, lookupKey, jsOr, truthy, AppStateRec.mk.injEq] at h

/-- C4 (amended): `app-state.yaml` wins exactly when its document is truthy;
a falsy (e.g. null) or absent `app-state.yaml` falls through to a truthy
`appState.yaml`; when neither path is present the result is an explicit
no-value (`none`), not an empty record. -/
theorem C4_appstate_precedence :
    (∀ (files : Files) (doc : Yaml),
      lookupKey "app-state.yaml" files = some doc → truthy doc = true →
      extractAppState files = some (projectAppStateDoc doc)) ∧
    (∀ (files : Files) (doc : Yaml),
      jsTruthyOpt (lookupKey "app-state.yaml" files) = false →
      lookupKey "appState.yaml" files = some doc → truthy doc = true →
      extractAppState files = some (projectAppStateDoc doc)) ∧
    (∀ files : Files,
      lookupKey "app-state.yaml" files = none → lookupKey "appState.yaml" files = none →
      extractAppState files = none) := by
  refine ⟨fun files doc h ht => ?_, fun files doc ha h ht => ?_, fun files h1 h2 => ?_⟩
  · simp [extractAppState, h, jsTruthyOpt, ht]
  · simp [extractAppState, ha, h, ht]
  · simp [extractAppState, h1, h2, jsTruthyOpt]

/-- C4 witness: both paths present with different variable lists and a
truthy `app-state.yaml`: the `app-state.yaml` content wins. -/
theorem C4_appstate_precedence_witness :
    extractAppState
      [("app-state.yaml", Yaml.map [("variables", Yaml.seq [Yaml.str "a"])]),
       ("appState.yaml", Yaml.map [("variables", Yaml.seq [Yaml.str "b"])])] =
      some (projectAppStateDoc (Yaml.map [("variables", Yaml.seq [Yaml.str "a"])])) :=
  C4_appstate_precedence.1 _ _ rfl rfl

/-! ### Claim C7 (filename-derived names) -/

/-- Modelled from the spec: the name derivation the spec describes — the
final slash-separated segment with its `.yaml` or `.yml` extension stripped —
stated as its own definition for comparison with the source's
`extractNameFromFilename`. -/
def specStripExtension (filename : String) : String :=
  let nameWithExt := (splitSlashAux filename.toList []).getLastD ""
  if strEndsWith nameWithExt ".yaml" = true then
    String.mk (nameWithExt.toList.take (nameWithExt.toList.length - 5))
  else if strEndsWith nameWithExt ".yml" = true then
    String.mk (nameWithExt.toList.take (nameWithExt.toList.length - 4))
  else nameWithExt

/-- A falsy (absent or falsy-valued) left operand makes `||` yield its
default. -/
theorem jsOr_of_false (a : Option Yaml) (b : Yaml) (h : jsTruthyOpt a = false) :
    jsOr a b = b := by
  cases a with
  | none => rfl
  | some v =>
    simp only [jsTruthyOpt] at h
    simp [jsOr, h]

/-- C7 counterexample: the source does not strip the extension — it removes
the first occurrence of `.yaml` and then the first occurrence of `.yml`
anywhere in the final segment.  At `components/a.yml.yaml` (no explicit
`name`) the extracted component is named `"a"`, while stripping the
extension would give `"a.yml"`. -/
theorem C7_counterexample :
    extractComponents
      [("components/a.yml.yaml",
        Yaml.map [("componentDefinition", Yaml.map [("x", Yaml.num 1)])])] =
      [⟨"components/a.yml.yaml", Yaml.str "a", Yaml.map [("x", Yaml.num 1)],
        Yaml.map [], Yaml.seq []⟩] ∧
    specStripExtension "components/a.yml.yaml" = "a.yml" ∧
    ("a" : String) ≠ "a.yml" :=
  ⟨rfl, rfl, by decide⟩

/-- C7 (amended): when the wrapper has no truthy `name` field, the extracted
component's name is `extractNameFromFilename` of the path — the final
slash-separated segment with the first occurrence of `.yaml` and then the
first occurrence of `.yml` removed (a deterministic pure function of the
path, agreeing with extension-stripping whenever the segment's stem contains
neither substring, as in `components/my_custom_button.yaml` ↦
`my_custom_button`). -/
theorem C7_name_fallback :
    ∀ (files : Files) (fn : String) (c d : Yaml),
      (fn, c) ∈ files →
      strIncludes fn "components/" = true →
      getFieldTruthy c "componentDefinition" = some d →
      jsTruthyOpt (getField d "name") = false →
      (⟨fn, .str (extractNameFromFilename fn), d, jsOr (getField d "properties") (.map []),
        jsOr (getField d "widgets") (.seq [])⟩ : ComponentRec) ∈ extractComponents files := by
  intro files fn c d hmem hpath hd hname
  apply List.mem_filterMap.mpr
  refine ⟨(fn, c), hmem, ?_⟩
  simp only [componentOf, hpath, if_true, hd, jsOr_of_false _ _ hname]

/-- C7 witness: the spec's example, `components/my_custom_button.yaml` with
no explicit `name`, yields a component named `my_custom_button`. -/
theorem C7_name_fallback_witness :
    (⟨"components/my_custom_button.yaml", Yaml.str "my_custom_button",
      Yaml.map [("widgets", Yaml.seq [Yaml.str "w"])], Yaml.map [],
      Yaml.seq [Yaml.str "w"]⟩ : ComponentRec) ∈
      extractComponents
        [("components/my_custom_button.yaml",
          Yaml.map [("componentDefinition", Yaml.map [("widgets", Yaml.seq [Yaml.str "w"])])])] :=
  C7_name_fallback _ "components/my_custom_button.yaml"
    (Yaml.map [("componentDefinition", Yaml.map [("widgets", Yaml.seq [Yaml.str "w"])])])
    (Yaml.map [("widgets", Yaml.seq [Yaml.str "w"])]) (by simp) rfl rfl rfl

/-! ### Fold-membership lemmas for the custom-code and collections loops -/

theorem customStep_sub (fn : String) (c : Yaml) (acc : CustomCodeResult) :
    acc.actions ⊆ (customStep fn c acc).actions ∧
    acc.functions ⊆ (customStep fn c acc).functions ∧
    acc.widgets ⊆ (customStep fn c acc).widgets := by
  unfold customStep
  split
  · exact ⟨List.subset_append_left _ _, fun _ h => h, fun _ h => h⟩
  · split
    · exact ⟨fun _ h => h, List.subset_append_left _ _, fun _ h => h⟩
    · split
      · exact ⟨fun _ h => h, fun _ h => h, List.subset_append_left _ _⟩
      · exact ⟨fun _ h => h, fun _ h => h, fun _ h => h⟩

theorem customFold_sub (files : Files) : ∀ acc : CustomCodeResult,
    acc.actions ⊆ (customFold files acc).actions ∧
    acc.functions ⊆ (customFold files acc).functions ∧
    acc.widgets ⊆ (customFold files acc).widgets := by
  induction files with
  | nil => exact fun acc => ⟨fun _ h => h, fun _ h => h, fun _ h => h⟩
  | cons p rest ih =>
    intro acc
    obtain ⟨fn, c⟩ := p
    rw [customFold]
    by_cases hcc : strIncludes fn "custom_code/" = true
    · rw [if_pos hcc]
      obtain ⟨h1, h2, h3⟩ := ih (customStep fn c acc)
      obtain ⟨g1, g2, g3⟩ := customStep_sub fn c acc
      exact ⟨fun x hx => h1 (g1 hx), fun x hx => h2 (g2 hx), fun x hx => h3 (g3 hx)⟩
    · rw [if_neg hcc]
      exact ih acc

theorem customFold_actions_mem (fn : String) (c d : Yaml)
    (hcc : strIncludes fn "custom_code/" = true)
    (ha : strIncludes fn "actions/" = true)
    (hd : getFieldTruthy c "actionDefinition" = some d) :
    ∀ (files : Files) (acc : CustomCodeResult), (fn, c) ∈ files →
      (⟨fn, getField d "name", d, jsOr (getField d "code") (.str ""),
        jsOr (getField d "parameters") (.seq [])⟩ : CustomCodeRec) ∈
        (customFold files acc).actions := by
  intro files
  induction files with
  | nil => intro acc h; simp at h
  | cons p rest ih =>
    intro acc hmem
    rcases List.mem_cons.mp hmem with heq | hmem'
    · cases heq
      rw [customFold, if_pos hcc]
      refine (customFold_sub rest (customStep fn c acc)).1 ?_
      simp [customStep, ha, hd]
    · obtain ⟨fn', c'⟩ := p
      rw [customFold]
      exact ih _ hmem'

theorem customFold_functions_mem (fn : String) (c d : Yaml)
    (hcc : strIncludes fn "custom_code/" = true)
    (hna : strIncludes fn "actions/" = false)
    (hf : strIncludes fn "functions/" = true)
    (hd : getFieldTruthy c "functionDefinition" = some d) :
    ∀ (files : Files) (acc : CustomCodeResult), (fn, c) ∈ files →
      (⟨fn, getField d "name", d, jsOr (getField d "code") (.str ""),
        jsOr (getField d "parameters") (.seq [])⟩ : CustomCodeRec) ∈
        (customFold files acc).functions := by
  intro files
  induction files with
  | nil => intro acc h; simp at h
  | cons p rest ih =>
    intro acc hmem
    rcases List.mem_cons.mp hmem with heq | hmem'
    · cases heq
      rw [customFold, if_pos hcc]
      refine (customFold_sub rest (customStep fn c acc)).2.1 ?_
      simp [customStep, hna, hf, hd]
    · obtain ⟨fn', c'⟩ := p
      rw [customFold]
      exact ih _ hmem'

theorem customFold_widgets_mem (fn : String) (c d : Yaml)
    (hcc : strIncludes fn "custom_code/" = true)
    (hna : strIncludes fn "actions/" = false)
    (hnf : strIncludes fn "functions/" = false)
    (hw : strIncludes fn "widgets/" = true)
    (hd : getFieldTruthy c "widgetDefinition" = some d) :
    ∀ (files : Files) (acc : CustomCodeResult), (fn, c) ∈ files →
      (⟨fn, getField d "name", d, jsOr (getField d "code") (.str ""),
        jsOr (getField d "properties") (.seq [])⟩ : CustomWidgetRec) ∈
        (customFold files acc).widgets := by
  intro files
  induction files with
  | nil => intro acc h; simp at h
  | cons p rest ih =>
    intro acc hmem
    rcases List.mem_cons.mp hmem with heq | hmem'
    · cases heq
      rw [customFold, if_pos hcc]
      refine (customFold_sub rest (customStep fn c acc)).2.2 ?_
      simp [customStep, hna, hnf, hw, hd]
    · obtain ⟨fn', c'⟩ := p
      rw [customFold]
      exact ih _ hmem'

theorem collectionsStep_ok_sub (fn : String) (c : Yaml) (acc acc' : List CollectionRec)
    (h : collectionsStep fn c acc = .ok acc') : acc ⊆ acc' := by
  unfold collectionsStep at h
  split at h
  · cases h
    exact List.subset_append_left _ _
  · split at h
    · split at h
      · cases h
        exact List.subset_append_left _ _
      · cases h
    · cases h
      exact fun _ hx => hx

theorem collFold_ok_sub : ∀ (files : Files) (acc recs : List CollectionRec),
    collFold files acc = .ok recs → acc ⊆ recs := by
  intro files
  induction files with
  | nil =>
    intro acc recs h
    cases h
    exact fun _ hx => hx
  | cons q rest ih =>
    intro acc recs h
    obtain ⟨fn, c⟩ := q
    rw [collFold] at h
    cases hs : collectionsStep fn c acc with
    | error e => rw [hs] at h; cases h
    | ok acc' =>
      rw [hs] at h
      exact fun x hx => ih acc' recs h (collectionsStep_ok_sub fn c acc acc' hs hx)

/-- Traversal: a record produced by one entry's step survives to the final
result of a successful extraction. -/
theorem collFold_mem (r : CollectionRec) (fn : String) (c : Yaml)
    (hstep : ∀ acc acc', collectionsStep fn c acc = .ok acc' → r ∈ acc') :
    ∀ (files : Files) (acc recs : List CollectionRec),
      (fn, c) ∈ files → collFold files acc = .ok recs → r ∈ recs := by
  intro files
  induction files with
  | nil => intro acc recs h; simp at h
  | cons q rest ih =>
    intro acc recs hmem hok
    obtain ⟨fn', c'⟩ := q
    rw [collFold] at hok
    cases hs : collectionsStep fn' c' acc with
    | error e => rw [hs] at hok; cases hok
    | ok acc' =>
      rw [hs] at hok
      rcases List.mem_cons.mp hmem with heq | hmem'
      · cases heq
        exact collFold_ok_sub rest acc' recs hok (hstep acc acc' hs)
      · exact ih acc' recs hmem' hok

theorem collectionsStep_perfile_mem (fn : String) (c d : Yaml)
    (hcoll : strIncludes fn "collections/" = true)
    (hd : getFieldTruthy c "collectionDefinition" = some d)
    (acc acc' : List CollectionRec) (h : collectionsStep fn c acc = .ok acc') :
    (⟨fn, jsOr (getField d "name") (.str (extractNameFromFilename fn)), d,
      jsOr (getField d "fields") (.seq []), jsOr (getField d "indexes") (.seq [])⟩ :
      CollectionRec) ∈ acc' := by
  simp only [collectionsStep, hcoll, if_true, hd] at h
  cases h
  simp

/-- A non-null entry of a `collections` map yields exactly the record built
from its key and value. -/
theorem collectionRecOfEntry_ok (fn : String) (p : String × Yaml)
    (h : isNull p.2 = false) :
    collectionRecOfEntry fn p =
      .ok ⟨fn, .str p.1, p.2, jsOr (getField p.2 "fields") (.seq []),
        jsOr (getField p.2 "indexes") (.seq [])⟩ := by
  obtain ⟨k, v⟩ := p
  cases v <;> simp_all [collectionRecOfEntry, getFieldPlain, getField, isNull]

theorem collectionRecsOf_mem (fn : String) :
    ∀ (entries : List (String × Yaml)) (l : List CollectionRec),
      collectionRecsOf fn entries = .ok l →
      ∀ p ∈ entries, ∀ r, collectionRecOfEntry fn p = .ok r → r ∈ l := by
  intro entries
  induction entries with
  | nil => intro l h p hp; simp at hp
  | cons q rest ih =>
    intro l h p hp r hr
    rw [collectionRecsOf] at h
    cases hq : collectionRecOfEntry fn q with
    | error e => rw [hq] at h; cases h
    | ok rq =>
      rw [hq] at h
      cases hrest : collectionRecsOf fn rest with
      | error e => rw [hrest] at h; cases h
      | ok rs =>
        rw [hrest] at h
        cases h
        rcases List.mem_cons.mp hp with heq | hmem
        · cases heq
          rw [hq] at hr
          cases hr
          exact List.mem_cons_self _ _
        · exact List.mem_cons_of_mem _ (ih rs hrest p hmem r hr)

theorem collectionsStep_multi_mem (fn : String) (c : Yaml) (colls : List (String × Yaml))
    (hnot : strIncludes fn "collections/" = false ∨
      getFieldTruthy c "collectionDefinition" = none)
    (hc : getFieldTruthy c "collections" = some (.map colls))
    (p : String × Yaml) (hp : p ∈ colls) (hpn : isNull p.2 = false)
    (acc acc' : List CollectionRec) (h : collectionsStep fn c acc = .ok acc') :
    (⟨fn, .str p.1, p.2, jsOr (getField p.2 "fields") (.seq []),
      jsOr (getField p.2 "indexes") (.seq [])⟩ : CollectionRec) ∈ acc' := by
  have hscrut : (if strIncludes fn "collections/"
      then getFieldTruthy c "collectionDefinition" else none) = none := by
    rcases hnot with h0 | h0
    · simp [h0]
    · cases hb : strIncludes fn "collections/" <;> simp [h0]
  simp only [collectionsStep, hscrut, hc, objEntries] at h
  cases hrec : collectionRecsOf fn colls with
  | error e => rw [hrec] at h; cases h
  | ok rs =>
    rw [hrec] at h
    cases h
    exact List.mem_append_right _
      (collectionRecsOf_mem fn colls rs hrec p hp _ (collectionRecOfEntry_ok fn p hpn))

/-! ### Claim C8 (substring path-convention membership) -/

/-- C8: path-convention membership is substring containment, not
leading-segment matching: any entry whose path merely contains
`components/` (resp. `pages/`, `custom_code/` with `actions/`,
`collections/`) and that carries the corresponding truthy wrapper is
extracted — for collections, in any successfully returned extraction — and
`updateComponent` matches any such entry whose wrapper `name` strict-equals
the identifier, rewriting it in any successfully returned mapping. -/
theorem C8_substring_convention :
    (∀ (files : Files) (fn : String) (c d : Yaml),
      (fn, c) ∈ files → strIncludes fn "components/" = true →
      getFieldTruthy c "componentDefinition" = some d →
      (⟨fn, jsOr (getField d "name") (.str (extractNameFromFilename fn)), d,
        jsOr (getField d "properties") (.map []), jsOr (getField d "widgets") (.seq [])⟩ :
        ComponentRec) ∈ extractComponents files) ∧
    (∀ (files : Files) (fn : String) (c : Yaml) (n : String) (patch : List (String × Yaml)),
      (fn, c) ∈ files → strIncludes fn "components/" = true →
      nameEquals ((getField c "componentDefinition").bind (fun d => getField d "name")) n = true →
      matchesEntity "components/" "componentDefinition" n fn c = true ∧
      (∀ result : Files, updateComponent files n patch = .ok result →
        (fn, mergedPure "componentDefinition" c patch) ∈ result)) ∧
    (∀ (files : Files) (fn : String) (c d : Yaml),
      (fn, c) ∈ files → strIncludes fn "pages/" = true →
      getFieldTruthy c "pageDefinition" = some d →
      (⟨fn, jsOr (getField d "name") (.str (extractNameFromFilename fn)), getField d "route", d,
        jsOr (getField d "widgets") (.seq []), jsOr (getField d "actions") (.seq [])⟩ :
        PageRec) ∈ extractPages files) ∧
    (∀ (files : Files) (fn : String) (c d : Yaml),
      (fn, c) ∈ files → strIncludes fn "custom_code/" = true →
      strIncludes fn "actions/" = true →
      getFieldTruthy c "actionDefinition" = some d →
      (⟨fn, getField d "name", d, jsOr (getField d "code") (.str ""),
        jsOr (getField d "parameters") (.seq [])⟩ : CustomCodeRec) ∈
        (extractCustomCode files).actions) ∧
    (∀ (files : Files) (fn : String) (c d : Yaml),
      (fn, c) ∈ files → strIncludes fn "collections/" = true →
      getFieldTruthy c "collectionDefinition" = some d →
      ∀ recs, extractDatabaseCollections files = .ok recs →
      (⟨fn, jsOr (getField d "name") (.str (extractNameFromFilename fn)), d,
        jsOr (getField d "fields") (.seq []), jsOr (getField d "indexes") (.seq [])⟩ :
        CollectionRec) ∈ recs) := by
  refine ⟨?_, ?_, ?_, ?_, ?_⟩
  · intro files fn c d hmem hpath hd
    exact List.mem_filterMap.mpr ⟨(fn, c), hmem, by simp [componentOf, hpath, hd]⟩
  · intro files fn c n patch hmem hpath hname
    have hm : matchesEntity "components/" "componentDefinition" n fn c = true := by
      simp [matchesEntity, hpath, hname]
    exact ⟨hm, fun result hok =>
      updateEntriesAux_mem "components/" "componentDefinition" n patch fn c hm
        files result hmem hok⟩
  · intro files fn c d hmem hpath hd
    exact List.mem_filterMap.mpr ⟨(fn, c), hmem, by simp [pageOf, hpath, hd]⟩
  · intro files fn c d hmem hcc ha hd
    exact customFold_actions_mem fn c d hcc ha hd files ⟨[], [], []⟩ hmem
  · intro files fn c d hmem hcoll hd recs hok
    exact collFold_mem _ fn c
      (fun acc acc' hs => collectionsStep_perfile_mem fn c d hcoll hd acc acc' hs)
      files [] recs hmem hok

/-- C8 witness: a component document at `custom_code/components/x.yaml` —
`components/` occurs only as a non-leading segment — is extracted, is
matched by `updateComponent`, and is rewritten in the returned mapping. -/
theorem C8_substring_convention_witness :
    ((⟨"custom_code/components/x.yaml", Yaml.str "X", Yaml.map [("name", Yaml.str "X")],
      Yaml.map [], Yaml.seq []⟩ : ComponentRec) ∈
      extractComponents
        [("custom_code/components/x.yaml",
          Yaml.map [("componentDefinition", Yaml.map [("name", Yaml.str "X")])])]) ∧
    (matchesEntity "components/" "componentDefinition" "X" "custom_code/components/x.yaml"
      (Yaml.map [("componentDefinition", Yaml.map [("name", Yaml.str "X")])]) = true) ∧
    (("custom_code/components/x.yaml",
        mergedPure "componentDefinition"
          (Yaml.map [("componentDefinition", Yaml.map [("name", Yaml.str "X")])])
          [("color", Yaml.str "#fff")]) ∈
      [("custom_code/components/x.yaml",
        mergedPure "componentDefinition"
          (Yaml.map [("componentDefinition", Yaml.map [("name", Yaml.str "X")])])
          [("color", Yaml.str "#fff")])]) :=
  ⟨C8_substring_convention.1
      [("custom_code/components/x.yaml",
        Yaml.map [("componentDefinition", Yaml.map [("name", Yaml.str "X")])])]
      "custom_code/components/x.yaml"
      (Yaml.map [("componentDefinition", Yaml.map [("name", Yaml.str "X")])])
      (Yaml.map [("name", Yaml.str "X")]) (by simp) rfl rfl,
   (C8_substring_convention.2.1
      [("custom_code/components/x.yaml",
        Yaml.map [("componentDefinition", Yaml.map [("name", Yaml.str "X")])])]
      "custom_code/components/x.yaml"
      (Yaml.map [("componentDefinition", Yaml.map [("name", Yaml.str "X")])])
      "X" [("color", Yaml.str "#fff")] (by simp) rfl rfl).1,
   (C8_substring_convention.2.1
      [("custom_code/components/x.yaml",
        Yaml.map [("componentDefinition", Yaml.map [("name", Yaml.str "X")])])]
      "custom_code/components/x.yaml"
      (Yaml.map [("componentDefinition", Yaml.map [("name", Yaml.str "X")])])
      "X" [("color", Yaml.str "#fff")] (by simp) rfl rfl).2
    [("custom_code/components/x.yaml",
      mergedPure "componentDefinition"
        (Yaml.map [("componentDefinition", Yaml.map [("name", Yaml.str "X")])])
        [("color", Yaml.str "#fff")])] rfl⟩

/-! ### Claim C9 (no filename fallback for custom code) -/

/-- C9: a custom action, function or widget whose wrapper lacks a `name`
field is extracted with an absent name (`none`) — unlike components, pages
and per-file collections, no filename-derived fallback is applied. -/
theorem C9_customcode_no_fallback :
    (∀ (files : Files) (fn : String) (c d : Yaml),
      (fn, c) ∈ files → strIncludes fn "custom_code/" = true →
      strIncludes fn "actions/" = true →
      getFieldTruthy c "actionDefinition" = some d → getField d "name" = none →
      (⟨fn, none, d, jsOr (getField d "code") (.str ""),
        jsOr (getField d "parameters") (.seq [])⟩ : CustomCodeRec) ∈
        (extractCustomCode files).actions) ∧
    (∀ (files : Files) (fn : String) (c d : Yaml),
      (fn, c) ∈ files → strIncludes fn "custom_code/" = true →
      strIncludes fn "actions/" = false → strIncludes fn "functions/" = true →
      getFieldTruthy c "functionDefinition" = some d → getField d "name" = none →
      (⟨fn, none, d, jsOr (getField d "code") (.str ""),
        jsOr (getField d "parameters") (.seq [])⟩ : CustomCodeRec) ∈
        (extractCustomCode files).functions) ∧
    (∀ (files : Files) (fn : String) (c d : Yaml),
      (fn, c) ∈ files → strIncludes fn "custom_code/" = true →
      strIncludes fn "actions/" = false → strIncludes fn "functions/" = false →
      strIncludes fn "widgets/" = true →
      getFieldTruthy c "widgetDefinition" = some d → getField d "name" = none →
      (⟨fn, none, d, jsOr (getField d "code") (.str ""),
        jsOr (getField d "properties") (.seq [])⟩ : CustomWidgetRec) ∈
        (extractCustomCode files).widgets) := by
  refine ⟨?_, ?_, ?_⟩
  · intro files fn c d hmem hcc ha hd hnone
    have h := customFold_actions_mem fn c d hcc ha hd files ⟨[], [], []⟩ hmem
    rw [hnone] at h
    exact h
  · intro files fn c d hmem hcc hna hf hd hnone
    have h := customFold_functions_mem fn c d hcc hna hf hd files ⟨[], [], []⟩ hmem
    rw [hnone] at h
    exact h
  · intro files fn c d hmem hcc hna hnf hw hd hnone
    have h := customFold_widgets_mem fn c d hcc hna hnf hw hd files ⟨[], [], []⟩ hmem
    rw [hnone] at h
    exact h

/-- C9 witness: an action definition without a `name` field is extracted
with name `none`. -/
theorem C9_customcode_no_fallback_witness :
    (⟨"custom_code/actions/do_it.yaml", none, Yaml.map [("code", Yaml.str "x")],
      Yaml.str "x", Yaml.seq []⟩ : CustomCodeRec) ∈
      (extractCustomCode
        [("custom_code/actions/do_it.yaml",
          Yaml.map [("actionDefinition", Yaml.map [("code", Yaml.str "x")])])]).actions :=
  C9_customcode_no_fallback.1 _ "custom_code/actions/do_it.yaml"
    (Yaml.map [("actionDefinition", Yaml.map [("code", Yaml.str "x")])])
    (Yaml.map [("code", Yaml.str "x")]) (by simp) rfl rfl rfl rfl

/-! ### Claim C10 (multi-collection layout at any path) -/

/-- C10 counterexample: the document at `foo.yaml` has a truthy `collections`
map and does not hit the per-file branch, so the claim demands a record for
its `posts` entry — but the entry's value is null, the plain access
`collectionData.fields` (yaml-utils.ts:150) throws a TypeError, and the whole
extraction returns nothing. -/
theorem C10_counterexample :
    getFieldTruthy (Yaml.map [("collections", Yaml.map [("posts", Yaml.null)])])
      "collections" = some (Yaml.map [("posts", Yaml.null)]) ∧
    extractDatabaseCollections
      [("foo.yaml", Yaml.map [("collections", Yaml.map [("posts", Yaml.null)])])] =
      .error "TypeError: Cannot read properties of null" :=
  ⟨rfl, rfl⟩

/-- C10 (amended): any document with a truthy top-level `collections` map
that does not hit the per-file branch contributes, for each non-null map
entry, one record keyed by the entry name to any successfully returned
extraction — at any path, not just the reserved `collections.yaml`; a null
entry value instead makes the whole extraction throw a TypeError. -/
theorem C10_multi_collections :
    ∀ (files : Files) (fn : String) (c : Yaml) (colls : List (String × Yaml)),
      (fn, c) ∈ files →
      (strIncludes fn "collections/" = false ∨
        getFieldTruthy c "collectionDefinition" = none) →
      getFieldTruthy c "collections" = some (.map colls) →
      ∀ p ∈ colls, isNull p.2 = false →
      ∀ recs, extractDatabaseCollections files = .ok recs →
        (⟨fn, .str p.1, p.2, jsOr (getField p.2 "fields") (.seq []),
          jsOr (getField p.2 "indexes") (.seq [])⟩ : CollectionRec) ∈ recs :=
  fun files fn c colls hmem hnot hc p hp hpn recs hok =>
    collFold_mem _ fn c
      (fun acc acc' hs => collectionsStep_multi_mem fn c colls hnot hc p hp hpn acc acc' hs)
      files [] recs hmem hok

/-- C10 witness: a multi-collection document at the unreserved path
`foo/bar.yaml` contributes a `posts` collection record to the returned
extraction. -/
theorem C10_multi_collections_witness :
    (⟨"foo/bar.yaml", Yaml.str "posts", Yaml.map [("fields", Yaml.seq [Yaml.str "t"])],
      Yaml.seq [Yaml.str "t"], Yaml.seq []⟩ : CollectionRec) ∈
      [(⟨"foo/bar.yaml", Yaml.str "posts", Yaml.map [("fields", Yaml.seq [Yaml.str "t"])],
        Yaml.seq [Yaml.str "t"], Yaml.seq []⟩ : CollectionRec)] :=
  C10_multi_collections
    [("foo/bar.yaml", Yaml.map [("collections",
      Yaml.map [("posts", Yaml.map [("fields", Yaml.seq [Yaml.str "t"])])])])]
    "foo/bar.yaml"
    (Yaml.map [("collections",
      Yaml.map [("posts", Yaml.map [("fields", Yaml.seq [Yaml.str "t"])])])])
    [("posts", Yaml.map [("fields", Yaml.seq [Yaml.str "t"])])]
    (by simp) (Or.inl rfl) rfl
    ("posts", Yaml.map [("fields", Yaml.seq [Yaml.str "t"])]) (by simp) rfl _ rfl

end FFMcp
